import Mathlib

/-!
# Verification of the `gocw` Chinese Whispers clustering core

Shallow embedding of `chinesewhispers.go` (package `gocw`).  Node indices
(`uint64` in the source) are modelled as `ℕ`; edge weights (`float64`) as `ℚ`
(weights are only added and compared, no float-specific behaviour is relied
upon by any property considered here).

Two sources of nondeterminism in the Go code are made explicit parameters:

* the stream of values returned by `rand.Int63()` — a function `rand : ℕ → ℕ`
  giving the raw value drawn at step `i` (the code reduces it modulo the node
  count);
* the iteration order of the Go map `labelsToCounts` in the best-label scan —
  a function `ord : ℕ → List (ℕ × ℚ) → List (ℕ × ℚ)` giving, at step `i`, the
  order in which the tally's entries are visited.  A faithful instantiation is
  any function producing a permutation of the tally (Go maps iterate over
  exactly their entries, in an unspecified order).  The tally itself is kept
  canonically in first-insertion order.
-/

/-- `Pair` from the source: an edge between sample indices `Idx1`, `Idx2`
with weight `Distance`. -/
structure Pair where
  Idx1 : ℕ
  Idx2 : ℕ
  Distance : ℚ
deriving DecidableEq, Repr

/-- `Edges.Less i j` from the source: lexicographic comparison by
`(Idx1, Idx2)`. -/
def pairLess (a b : Pair) : Bool :=
  decide (a.Idx1 < b.Idx1) || (decide (a.Idx1 = b.Idx1) && decide (a.Idx2 < b.Idx2))

/-- `sort.IsSorted` on `Edges`: no element is `Less` than its predecessor. -/
def edgesSorted : List Pair → Bool
  | [] => true
  | [_] => true
  | a :: b :: rest => !pairLess b a && edgesSorted (b :: rest)

/-- `ensureOrdered` from the source.  If the stored edges are already sorted
it returns immediately.  Otherwise the source builds a local buffer `ordered`
(`make(Edges, len*2)` pre-fills it with `2*len` zero pairs, then every edge
and — for non-self edges — its mirror are appended, then the buffer is sorted
in place by `sort.Sort`), but the buffer is never assigned back to `c.edges`:
the function returns with the stored edge sequence unchanged on both paths.
The store transition is therefore the identity. -/
def ensureOrdered (edges : List Pair) : List Pair :=
  if edgesSorted edges then edges else edges

/-- The `maxIdx` computation inside `findNeighbourRanges`: running maximum of
all endpoint indices, starting from 0. -/
def maxEndpoint (edges : List Pair) : ℕ :=
  edges.foldl (fun m e => max (max m e.Idx1) e.Idx2) 0

/-- `numNodes` inside `findNeighbourRanges`: 0 for an empty edge store,
otherwise the maximal endpoint index plus one. -/
def numNodes (edges : List Pair) : ℕ :=
  match edges with
  | [] => 0
  | _ :: _ => maxEndpoint edges + 1

/-- The edge-walking loop of `findNeighbourRanges`.  State: the ranges built
so far (`nb`), `curNode`, `startIdx`, and the loop counter `i`; whenever the
`Idx1` field changes, the previous node's range is closed at the current
position and a new range is opened. -/
def rangesLoop : List (ℕ × ℕ) → ℕ → ℕ → ℕ → List Pair → List (ℕ × ℕ) × ℕ × ℕ
  | nb, curNode, startIdx, _, [] => (nb, curNode, startIdx)
  | nb, curNode, startIdx, i, e :: rest =>
    if e.Idx1 ≠ curNode then
      rangesLoop (nb.set curNode (startIdx, i)) e.Idx1 i (i + 1) rest
    else
      rangesLoop nb curNode startIdx (i + 1) rest

/-- `findNeighbourRanges` from the source: allocate `numNodes` empty ranges,
run the edge-walking loop, and close the final node's range at the end of the
edge sequence (when any ranges exist at all). -/
def findNeighbourRanges (edges : List Pair) : List (ℕ × ℕ) :=
  let st := rangesLoop (List.replicate (numNodes edges) (0, 0)) 0 0 0 edges
  if st.1.length ≠ 0 then st.1.set st.2.1 (st.2.2, edges.length) else st.1

/-- One `labelsToCounts[key] += w` update on the tally, kept as an
association list in first-insertion order: accumulate into an existing entry
for `key`, or append a fresh entry. -/
def addTally (acc : List (ℕ × ℚ)) (key : ℕ) (w : ℚ) : List (ℕ × ℚ) :=
  match acc with
  | [] => [(key, w)]
  | (k, v) :: rest =>
    if k = key then (k, v + w) :: rest else (k, v) :: addTally rest key w

/-- The tally-building loop of one step: for `n` from `s` to `e`, add
`edges[n].Distance` to the accumulator keyed by `labels[edges[n].Idx2]`.
Out-of-range reads are totalized with defaults (the bounds theorems below show
they do not occur in `Run`). -/
def tallyRange (edges : List Pair) (labels : List ℕ) (s e : ℕ) : List (ℕ × ℚ) :=
  (List.range' s (e - s)).foldl
    (fun acc n =>
      let ed := edges.getD n ⟨0, 0, 0⟩
      addTally acc (labels.getD ed.Idx2 0) ed.Distance)
    []

/-- The body of the best-label scan, threading the `(bestLabel, bestScore)`
state through the visited entries; an entry with a strictly greater score
replaces the incumbent (`none` stands for the initial `-∞` score, beaten by
any entry). -/
def selectBestGo (best : ℕ × Option ℚ) : List (ℕ × ℚ) → ℕ × Option ℚ
  | [] => best
  | kv :: rest =>
    match best.2 with
    | none => selectBestGo (kv.1, some kv.2) rest
    | some s =>
      if s < kv.2 then selectBestGo (kv.1, some kv.2) rest else selectBestGo best rest

/-- The best-label scan of one step: `bestScore` starts at `-∞`, `bestLabel`
starts as the node's own current label. -/
def selectBest (incumbent : ℕ) (tally : List (ℕ × ℚ)) : ℕ :=
  (selectBestGo (incumbent, none) tally).1

/-- One iteration of the main loop of `Run`: reduce the drawn random value
modulo the node count, tally the chosen node's neighbour labels, scan the
tally in the order `ord` chooses for this step, and write the winner into the
label array. -/
def cwStep (edges : List Pair) (nb : List (ℕ × ℕ))
    (ord : List (ℕ × ℚ) → List (ℕ × ℚ)) (labels : List ℕ) (pick : ℕ) : List ℕ :=
  let idx := pick % nb.length
  let r := nb.getD idx (0, 0)
  labels.set idx (selectBest (labels.getD idx 0) (ord (tallyRange edges labels r.1 r.2)))

/-- The main loop of `Run`: `steps` sequential iterations of `cwStep`, step
`i` drawing `rand i` and scanning its tally in order `ord i`. -/
def propagate (edges : List Pair) (nb : List (ℕ × ℕ)) (rand : ℕ → ℕ)
    (ord : ℕ → List (ℕ × ℚ) → List (ℕ × ℚ)) (steps : ℕ) (labels : List ℕ) : List ℕ :=
  (List.range steps).foldl (fun ls i => cwStep edges nb (ord i) ls (rand i)) labels

/-- Go map assignment `m[key] = v` on an association list: overwrite the
entry for `key` if present, otherwise append it. -/
def assocSet : List (ℕ × ℕ) → ℕ → ℕ → List (ℕ × ℕ)
  | [], key, v => [(key, v)]
  | (k, w) :: rest, key, v =>
    if k = key then (k, v) :: rest else (k, w) :: assocSet rest key v

/-- Go map lookup `m[key]` on an association list. -/
def lookupAssoc : List (ℕ × ℕ) → ℕ → Option ℕ
  | [], _ => none
  | (k, w) :: rest, key => if k = key then some w else lookupAssoc rest key

/-- The `labelRemap` construction in `Run`: for each label in node-index
order, `labelRemap[c.labels[i]] = len(labelRemap)`.  Note the assignment is
unconditional: a label seen again is re-assigned the current map size. -/
def labelRemapOf (labels : List ℕ) : List (ℕ × ℕ) :=
  labels.foldl (fun m l => assocSet m l m.length) []

/-- The compaction phase of `Run`: build `labelRemap`, rewrite every label
through it, and return the new labels together with `len(labelRemap)`. -/
def compact (labels : List ℕ) : List ℕ × ℕ :=
  let m := labelRemapOf labels
  (labels.map (fun l => (lookupAssoc m l).getD 0), m.length)

/-- The label array as it stands after the propagation loop of `Run` (before
compaction): `ensureOrdered`, then `findNeighbourRanges`, labels initialized
to the node indices, then `len(neighbours) * numIterations` steps. -/
def propagatedLabels (numIterations : ℕ) (rand : ℕ → ℕ)
    (ord : ℕ → List (ℕ × ℚ) → List (ℕ × ℚ)) (edges0 : List Pair) : List ℕ :=
  let edges := ensureOrdered edges0
  let nb := findNeighbourRanges edges
  propagate edges nb rand ord (nb.length * numIterations) (List.range nb.length)

/-- `Run` from the source: normalize (a no-op, see `ensureOrdered`), return
`([], 0)` for an empty store, otherwise propagate and compact.  The result is
the final label array (`c.labels`) together with the returned cluster
count. -/
def RunCW (numIterations : ℕ) (rand : ℕ → ℕ)
    (ord : ℕ → List (ℕ × ℚ) → List (ℕ × ℚ)) (edges0 : List Pair) : List ℕ × ℕ :=
  let edges := ensureOrdered edges0
  if edges.length = 0 then ([], 0)
  else compact (propagatedLabels numIterations rand ord edges0)

/-! ## Basic lemmas -/

theorem ensureOrdered_eq (edges : List Pair) : ensureOrdered edges = edges := by
  unfold ensureOrdered
  split <;> rfl

theorem numNodes_eq_zero_iff (edges : List Pair) : numNodes edges = 0 ↔ edges = [] := by
  cases edges with
  | nil => simp [numNodes]
  | cons e rest => simp [numNodes]

theorem rangesLoop_length (todo : List Pair) :
    ∀ (nb : List (ℕ × ℕ)) (cur start i : ℕ),
      (rangesLoop nb cur start i todo).1.length = nb.length := by
  induction todo with
  | nil => intro nb cur start i; rfl
  | cons e rest ih =>
    intro nb cur start i
    unfold rangesLoop
    split
    · rw [ih]; exact List.length_set ..
    · exact ih ..

theorem findNeighbourRanges_length (edges : List Pair) :
    (findNeighbourRanges edges).length = numNodes edges := by
  simp only [findNeighbourRanges]
  split
  · rw [List.length_set, rangesLoop_length, List.length_replicate]
  · rw [rangesLoop_length, List.length_replicate]

theorem propagate_succ (edges : List Pair) (nb : List (ℕ × ℕ)) (rand : ℕ → ℕ)
    (ord : ℕ → List (ℕ × ℚ) → List (ℕ × ℚ)) (steps : ℕ) (labels : List ℕ) :
    propagate edges nb rand ord (steps + 1) labels =
      cwStep edges nb (ord steps) (propagate edges nb rand ord steps labels) (rand steps) := by
  unfold propagate
  rw [List.range_succ, List.foldl_append]
  rfl

/-! ## Claim C1 -/

/-- C1: the claim states that after `ensureOrdered` the edge sequence used
downstream is the symmetric sorted closure of the input and that the
normalized sequence replaces the store contents.  The code violates this:
`ensureOrdered` leaves the store unchanged on every input (the mirrored
sorted buffer it builds on the unsorted path is never assigned back), so for
the single non-self edge `(0,1,1)` the mirror `(1,0,1)` is absent from the
sequence used by all downstream steps. -/
theorem ensureOrdered_discards_result :
    (∀ edges, ensureOrdered edges = edges) ∧
    ensureOrdered [⟨0, 1, 1⟩] = [⟨0, 1, 1⟩] ∧
    (⟨1, 0, 1⟩ : Pair) ∉ ensureOrdered [⟨0, 1, 1⟩] :=
  ⟨ensureOrdered_eq, by decide, by decide⟩

/-! ## Claim C2 -/

/-- C2: the claim states that the compacted label array is exactly
`{0, …, k-1}` with first-seen raw labels mapped to the next free ID.  The
code violates this: the remap loop executes `labelRemap[label] = len(labelRemap)`
unconditionally, re-assigning a label already in the map.  On the symmetric
single-edge graph `{(0,1,1),(1,0,1)}` with one iteration (random picks all 0)
both nodes converge to one label, and `Run` returns `k = 1` with final labels
`[1, 1]` — the value `1` is outside `{0}`.  The second conjunct isolates the
compactor: on the already-converged array `[0, 0]` it produces `([1, 1], 1)`
instead of `([0, 0], 1)`. -/
theorem compact_not_contiguous :
    RunCW 1 (fun _ => 0) (fun _ l => l) [⟨0, 1, 1⟩, ⟨1, 0, 1⟩] = ([1, 1], 1) ∧
    compact [0, 0] = ([1, 1], 1) := by decide

/-! ## Claim C4 -/

/-- C4: with an empty edge store, `Run` returns 0 clusters (and an empty
label array); in the embedding `RunCW` is a total function, so no failure is
possible. -/
theorem run_empty_store (n : ℕ) (rand : ℕ → ℕ)
    (ord : ℕ → List (ℕ × ℚ) → List (ℕ × ℚ)) :
    RunCW n rand ord [] = ([], 0) := rfl

/-! ## Claim C9 -/

/-- C9 counterexample: same edge set, same iteration count, and the same
sequence of random draws (`rand.Int63()` values), yet two legitimate
iteration orders of the Go tally map (insertion order vs its reverse — both
permutations of the same entries) give different final label arrays.  Go's
map iteration order is randomized independently of the seeded `rand` source,
so a fixed seed does not make `Run` bit-identical across runs. -/
theorem run_map_order_dependent :
    RunCW 1 (fun _ => 0) (fun _ l => l) [⟨0, 1, 1⟩, ⟨0, 2, 1⟩, ⟨1, 0, 1⟩, ⟨2, 0, 1⟩]
      ≠ RunCW 1 (fun _ => 0) (fun _ l => l.reverse)
          [⟨0, 1, 1⟩, ⟨0, 2, 1⟩, ⟨1, 0, 1⟩, ⟨2, 0, 1⟩] := by decide

/-- C9 amended: with the same edge set, the same iteration count, the same
random sequence, and additionally the same tally-map iteration order at every
step, `Run` produces a bit-identical label array and cluster count. -/
theorem run_deterministic (e1 e2 : List Pair) (n1 n2 : ℕ) (r1 r2 : ℕ → ℕ)
    (o1 o2 : ℕ → List (ℕ × ℚ) → List (ℕ × ℚ))
    (he : e1 = e2) (hn : n1 = n2) (hr : r1 = r2) (ho : o1 = o2) :
    RunCW n1 r1 o1 e1 = RunCW n2 r2 o2 e2 := by
  subst he; subst hn; subst hr; subst ho; rfl

theorem run_deterministic_witness :
    RunCW 1 (fun _ => 0) (fun _ l => l) [⟨0, 1, 1⟩, ⟨1, 0, 1⟩]
      = RunCW 1 (fun _ => 0) (fun _ l => l) [⟨0, 1, 1⟩, ⟨1, 0, 1⟩] :=
  run_deterministic _ _ _ _ _ _ _ _ rfl rfl rfl rfl

/-! ## Claim C8 -/

/-- C8: the propagation phase of `Run` executes exactly
`numNodes * numIterations` steps (`propagatedLabels` unfolds to `propagate`
with that step count), each step rewrites exactly the one entry of the label
array at the sampled index, each step operates on the array produced by all
preceding steps (the fold recurrence), and with no nodes `Run` performs no
steps and returns `([], 0)`.  Termination is by construction: every function
of the embedding is structurally recursive. -/
theorem run_step_structure (edges : List Pair) (nb : List (ℕ × ℕ))
    (rand : ℕ → ℕ) (ord : ℕ → List (ℕ × ℚ) → List (ℕ × ℚ)) :
    (∀ labels pick o, ∃ v, cwStep edges nb o labels pick = labels.set (pick % nb.length) v) ∧
    (∀ steps labels, propagate edges nb rand ord (steps + 1) labels =
        cwStep edges nb (ord steps) (propagate edges nb rand ord steps labels) (rand steps)) ∧
    (∀ iters r2 o2 e2, propagatedLabels iters r2 o2 e2 =
        propagate e2 (findNeighbourRanges e2) r2 o2 (numNodes e2 * iters)
          (List.range (numNodes e2))) ∧
    (∀ iters r2 o2 e2, numNodes e2 = 0 → RunCW iters r2 o2 e2 = ([], 0)) := by
  refine ⟨fun labels pick o => ⟨_, rfl⟩, fun steps labels => propagate_succ .., ?_, ?_⟩
  · intro iters r2 o2 e2
    simp only [propagatedLabels, ensureOrdered_eq, findNeighbourRanges_length]
  · intro iters r2 o2 e2 h
    rw [(numNodes_eq_zero_iff e2).mp h]
    rfl

theorem run_step_structure_witness :
    RunCW 3 (fun _ => 0) (fun _ l => l) ([] : List Pair) = ([], 0) :=
  (run_step_structure [] [] (fun _ => 0) (fun _ l => l)).2.2.2 3
    (fun _ => 0) (fun _ l => l) [] rfl

/-! ## Helper lemmas on list access -/

theorem getD_set_ne {α : Type} (l : List α) (i j : ℕ) (a d : α) (h : i ≠ j) :
    (l.set i a).getD j d = l.getD j d := by
  simp [List.getD, List.getElem?_set_ne h]

theorem getD_set_self {α : Type} (l : List α) (i : ℕ) (a d : α) (h : i < l.length) :
    (l.set i a).getD i d = a := by
  simp [List.getD, List.getElem?_set_self', List.getElem?_eq_getElem h]

theorem set_getD_self {α : Type} (l : List α) (i : ℕ) (d : α) :
    l.set i (l.getD i d) = l := by
  induction l generalizing i with
  | nil => rfl
  | cons a t ih =>
    cases i with
    | zero => rfl
    | succ n => simp only [List.set, List.getD_cons_succ, ih]

theorem getD_range (n i d : ℕ) (h : i < n) : (List.range n).getD i d = i := by
  simp [List.getD, List.getElem?_range, h]

theorem getD_replicate {α : Type} (n i : ℕ) (x : α) : (List.replicate n x).getD i x = x := by
  induction n generalizing i with
  | zero => cases i <;> rfl
  | succ n ih =>
    cases i with
    | zero => rfl
    | succ m =>
      simp only [List.replicate_succ, List.getD_cons_succ]
      exact ih m

/-! ## Compaction of an array of pairwise-distinct labels -/

theorem assocSet_of_lookup_none (m : List (ℕ × ℕ)) (key v : ℕ)
    (h : lookupAssoc m key = none) : assocSet m key v = m ++ [(key, v)] := by
  induction m with
  | nil => rfl
  | cons kw rest ih =>
    obtain ⟨k, w⟩ := kw
    by_cases hk : k = key
    · simp [lookupAssoc, hk] at h
    · simp only [assocSet, if_neg hk, List.cons_append]
      rw [ih]
      simpa [lookupAssoc, hk] using h

theorem lookup_range'_map (n : ℕ) :
    ∀ s j : ℕ, lookupAssoc ((List.range' s n).map (fun i => (i, i))) j
      = if s ≤ j ∧ j < s + n then some j else none := by
  induction n with
  | zero =>
    intro s j
    simp only [List.range', List.map_nil, lookupAssoc]
    rw [if_neg (by omega)]
  | succ n ih =>
    intro s j
    rw [List.range'_succ s n 1]
    by_cases hs : s = j
    · subst hs
      simp [lookupAssoc]
    · simp only [List.map_cons, lookupAssoc, if_neg hs, ih (s + 1) j]
      have : (s + 1 ≤ j ∧ j < s + 1 + n) ↔ (s ≤ j ∧ j < s + (n + 1)) := by omega
      simp only [this]

theorem lookup_range_map (n j : ℕ) :
    lookupAssoc ((List.range n).map (fun i => (i, i))) j
      = if j < n then some j else none := by
  rw [List.range_eq_range' n, lookup_range'_map n 0 j]
  simp

theorem labelRemapOf_range (n : ℕ) :
    labelRemapOf (List.range n) = (List.range n).map (fun i => (i, i)) := by
  induction n with
  | zero => rfl
  | succ n ih =>
    have hkey : lookupAssoc ((List.range n).map (fun i => (i, i))) n = none := by
      rw [lookup_range_map]; simp
    have hlen : ((List.range n).map (fun i => (i, i))).length = n := by
      rw [List.length_map, List.length_range]
    unfold labelRemapOf at ih ⊢
    rw [List.range_succ, List.foldl_append, ih, List.foldl_cons, List.foldl_nil,
      hlen, assocSet_of_lookup_none _ _ _ hkey, List.map_append]
    rfl

theorem compact_range (n : ℕ) : compact (List.range n) = (List.range n, n) := by
  unfold compact
  rw [labelRemapOf_range]
  refine Prod.ext ?_ ?_
  · show List.map _ _ = _
    rw [List.map_congr_left (g := id) ?_, List.map_id]
    intro a ha
    rw [List.mem_range] at ha
    simp [lookup_range_map, ha]
  · show List.length _ = _
    rw [List.length_map, List.length_range]

/-! ## Claim C5 -/

/-- C5: with `numIterations = 0` and a non-empty edge set, the propagation
loop runs zero steps, so `Run` returns the initial singleton partition
compacted: the label array is `[0, 1, …, numNodes-1]` (pairwise distinct) and
the cluster count is `numNodes`. -/
theorem run_zero_iterations (edges : List Pair) (h : edges ≠ []) (rand : ℕ → ℕ)
    (ord : ℕ → List (ℕ × ℚ) → List (ℕ × ℚ)) :
    RunCW 0 rand ord edges = (List.range (numNodes edges), numNodes edges) ∧
    (RunCW 0 rand ord edges).1.Nodup := by
  have h1 : RunCW 0 rand ord edges = compact (List.range (numNodes edges)) := by
    simp only [RunCW, propagatedLabels, ensureOrdered_eq, findNeighbourRanges_length,
      Nat.mul_zero]
    rw [if_neg (by simpa using h)]
    rfl
  rw [h1, compact_range]
  exact ⟨rfl, List.nodup_range _⟩

/-- C5 witness: for the single edge `(0,1,1)` with zero iterations, `Run`
returns 2 clusters and the two nodes carry the distinct labels 0 and 1. -/
theorem run_zero_iterations_witness :
    RunCW 0 (fun _ => 0) (fun _ l => l) [⟨0, 1, 1⟩] = ([0, 1], 2) :=
  ((run_zero_iterations [⟨0, 1, 1⟩] (by decide) (fun _ => 0) (fun _ l => l)).1).trans
    (by decide)

/-! ## Claim C6 -/

theorem tallyRange_empty (edges : List Pair) (labels : List ℕ) (s : ℕ) :
    tallyRange edges labels s s = [] := by
  unfold tallyRange
  rw [Nat.sub_self]
  rfl

theorem cwStep_getD_of_empty_range (edges : List Pair) (nb : List (ℕ × ℕ))
    (o : List (ℕ × ℚ) → List (ℕ × ℚ)) (labels : List ℕ) (pick v : ℕ)
    (ho : ∀ t, (o t).Perm t)
    (hv : (nb.getD v (0, 0)).1 = (nb.getD v (0, 0)).2) :
    (cwStep edges nb o labels pick).getD v 0 = labels.getD v 0 := by
  simp only [cwStep]
  by_cases h : pick % nb.length = v
  · rw [h]
    have ht : tallyRange edges labels (nb.getD v (0, 0)).1 (nb.getD v (0, 0)).2 = [] := by
      rw [← hv]
      exact tallyRange_empty ..
    rw [ht, (ho []).eq_nil,
      show selectBest (labels.getD v 0) [] = labels.getD v 0 from rfl,
      set_getD_self]
  · rw [getD_set_ne _ _ _ _ _ h]

theorem propagate_getD_of_empty_range (edges : List Pair) (nb : List (ℕ × ℕ))
    (rand : ℕ → ℕ) (ord : ℕ → List (ℕ × ℚ) → List (ℕ × ℚ)) (v : ℕ)
    (hord : ∀ i t, (ord i t).Perm t)
    (hv : (nb.getD v (0, 0)).1 = (nb.getD v (0, 0)).2) :
    ∀ (steps : ℕ) (labels : List ℕ),
      (propagate edges nb rand ord steps labels).getD v 0 = labels.getD v 0 := by
  intro steps
  induction steps with
  | zero => intro labels; rfl
  | succ s ih =>
    intro labels
    rw [propagate_succ, cwStep_getD_of_empty_range _ _ _ _ _ _ (hord s) hv, ih]

/-- C6: a node `v` whose neighbour range is empty (as every node with no
incident edges has) keeps its initial singleton label `v` after every prefix
of propagation steps of every run — its empty tally leaves its own current
label as the incumbent best candidate — and in particular still carries `v`
when the propagation loop of `Run` finishes, for any iteration count, any
random choices, and any tally-map iteration orders. -/
theorem isolated_node_stable (edges : List Pair) (numIterations : ℕ) (rand : ℕ → ℕ)
    (ord : ℕ → List (ℕ × ℚ) → List (ℕ × ℚ)) (v : ℕ)
    (hord : ∀ i t, (ord i t).Perm t)
    (hv : v < numNodes edges)
    (hr : ((findNeighbourRanges edges).getD v (0, 0)).1
        = ((findNeighbourRanges edges).getD v (0, 0)).2) :
    (∀ steps, (propagate edges (findNeighbourRanges edges) rand ord steps
        (List.range (numNodes edges))).getD v 0 = v) ∧
    (propagatedLabels numIterations rand ord edges).getD v 0 = v := by
  have main : ∀ steps, (propagate edges (findNeighbourRanges edges) rand ord steps
      (List.range (numNodes edges))).getD v 0 = v := fun steps =>
    (propagate_getD_of_empty_range edges _ rand ord v hord hr steps _).trans
      (getD_range _ _ _ hv)
  refine ⟨main, ?_⟩
  simp only [propagatedLabels, ensureOrdered_eq, findNeighbourRanges_length]
  exact main _

/-- C6 witness: in the graph `{(1,2,1),(2,1,1)}` node 0 is isolated (its
range is empty); after a 2-iteration run its label is still 0. -/
theorem isolated_node_stable_witness :
    (propagatedLabels 2 (fun i => i) (fun _ l => l) [⟨1, 2, 1⟩, ⟨2, 1, 1⟩]).getD 0 0 = 0 :=
  (isolated_node_stable [⟨1, 2, 1⟩, ⟨2, 1, 1⟩] 2 (fun i => i) (fun _ l => l) 0
    (fun _ t => List.Perm.refl t) (by decide) (by decide)).2

/-! ## Claim C10 -/

theorem foldl_max_init_le (edges : List Pair) :
    ∀ init, init ≤ edges.foldl (fun m e => max (max m e.Idx1) e.Idx2) init := by
  induction edges with
  | nil => intro init; exact le_refl _
  | cons e rest ih =>
    intro init
    exact le_trans (le_trans (le_max_left init e.Idx1) (le_max_left _ e.Idx2)) (ih _)

theorem mem_le_foldl_max (edges : List Pair) :
    ∀ init (e : Pair), e ∈ edges →
      e.Idx1 ≤ edges.foldl (fun m e => max (max m e.Idx1) e.Idx2) init ∧
      e.Idx2 ≤ edges.foldl (fun m e => max (max m e.Idx1) e.Idx2) init := by
  induction edges with
  | nil => intro _ e he; cases he
  | cons a rest ih =>
    intro init e he
    rcases List.mem_cons.mp he with rfl | h
    · rw [List.foldl_cons]
      constructor
      · exact le_trans (le_trans (le_max_right _ _) (le_max_left _ _))
          (foldl_max_init_le rest _)
      · exact le_trans (le_max_right _ _) (foldl_max_init_le rest _)
    · exact ih _ e h

theorem endpoint_lt_numNodes (edges : List Pair) (e : Pair) (he : e ∈ edges) :
    e.Idx1 < numNodes edges ∧ e.Idx2 < numNodes edges := by
  cases edges with
  | nil => cases he
  | cons a rest =>
    have h := mem_le_foldl_max (a :: rest) 0 e he
    have hnum : numNodes (a :: rest)
        = (a :: rest).foldl (fun m e => max (max m e.Idx1) e.Idx2) 0 + 1 := rfl
    rw [hnum]
    omega

theorem rangesLoop_bounds (todo : List Pair) :
    ∀ (nb : List (ℕ × ℕ)) (cur start i total : ℕ),
      start ≤ i → i + todo.length = total →
      (∀ r ∈ nb, r.1 ≤ r.2 ∧ r.2 ≤ total) →
      (∀ r ∈ (rangesLoop nb cur start i todo).1, r.1 ≤ r.2 ∧ r.2 ≤ total) ∧
      (rangesLoop nb cur start i todo).2.2 ≤ total := by
  induction todo with
  | nil =>
    intro nb cur start i total h1 h2 h3
    refine ⟨h3, ?_⟩
    show start ≤ total
    simp only [List.length_nil] at h2
    omega
  | cons e rest ih =>
    intro nb cur start i total h1 h2 h3
    simp only [List.length_cons] at h2
    unfold rangesLoop
    split
    · refine ih _ _ _ _ _ (Nat.le_succ i) (by omega) ?_
      intro r hr
      rcases List.mem_or_eq_of_mem_set hr with h | rfl
      · exact h3 r h
      · exact ⟨h1, by omega⟩
    · exact ih _ _ _ _ _ (by omega) (by omega) h3

theorem findNeighbourRanges_bounds (edges : List Pair) :
    ∀ r ∈ findNeighbourRanges edges, r.1 ≤ r.2 ∧ r.2 ≤ edges.length := by
  have h := rangesLoop_bounds edges (List.replicate (numNodes edges) (0, 0)) 0 0 0
    edges.length (le_refl 0) (by simp)
    (by
      intro r hr
      rw [List.eq_of_mem_replicate hr]
      exact ⟨le_refl 0, Nat.zero_le _⟩)
  simp only [findNeighbourRanges]
  split
  · intro r hr
    rcases List.mem_or_eq_of_mem_set hr with h' | rfl
    · exact h.1 r h'
    · exact ⟨h.2, le_refl _⟩
  · exact h.1

theorem selectBestGo_mem :
    ∀ (t : List (ℕ × ℚ)) (b1 : ℕ) (b2 : Option ℚ),
      (selectBestGo (b1, b2) t).1 = b1 ∨ (selectBestGo (b1, b2) t).1 ∈ t.map Prod.fst := by
  intro t
  induction t with
  | nil => intro b1 b2; exact Or.inl rfl
  | cons kv rest ih =>
    intro b1 b2
    cases b2 with
    | none =>
      rcases ih kv.1 (some kv.2) with h | h
      · right; rw [List.map_cons]; rw [show selectBestGo (b1, none) (kv :: rest)
          = selectBestGo (kv.1, some kv.2) rest from rfl, h]
        exact List.mem_cons_self _ _
      · right; rw [List.map_cons]
        exact List.mem_cons_of_mem _ (by
          rw [show selectBestGo (b1, none) (kv :: rest)
            = selectBestGo (kv.1, some kv.2) rest from rfl]
          exact h)
    | some s =>
      rw [show selectBestGo (b1, some s) (kv :: rest)
        = if s < kv.2 then selectBestGo (kv.1, some kv.2) rest
          else selectBestGo (b1, some s) rest from rfl]
      split
      · rcases ih kv.1 (some kv.2) with h | h
        · right; rw [List.map_cons, h]; exact List.mem_cons_self _ _
        · right; rw [List.map_cons]; exact List.mem_cons_of_mem _ h
      · rcases ih b1 (some s) with h | h
        · exact Or.inl h
        · right; rw [List.map_cons]; exact List.mem_cons_of_mem _ h

theorem selectBest_mem (inc : ℕ) (t : List (ℕ × ℚ)) :
    selectBest inc t = inc ∨ selectBest inc t ∈ t.map Prod.fst :=
  selectBestGo_mem t inc none

theorem addTally_fst_mem (key : ℕ) (w : ℚ) :
    ∀ (acc : List (ℕ × ℚ)), ∀ x ∈ (addTally acc key w).map Prod.fst,
      x ∈ acc.map Prod.fst ∨ x = key := by
  intro acc
  induction acc with
  | nil =>
    intro x hx
    simp only [addTally, List.map_cons, List.map_nil] at hx
    rcases List.mem_cons.mp hx with rfl | h
    · exact Or.inr rfl
    · cases h
  | cons kv rest ih =>
    obtain ⟨k, v⟩ := kv
    intro x hx
    by_cases hk : k = key
    · simp only [addTally, if_pos hk, List.map_cons] at hx
      rcases List.mem_cons.mp hx with rfl | h
      · exact Or.inl (by rw [List.map_cons]; exact List.mem_cons_self _ _)
      · exact Or.inl (by rw [List.map_cons]; exact List.mem_cons_of_mem _ h)
    · simp only [addTally, if_neg hk, List.map_cons] at hx
      rcases List.mem_cons.mp hx with rfl | h
      · exact Or.inl (by rw [List.map_cons]; exact List.mem_cons_self _ _)
      · rcases ih x h with h' | h'
        · exact Or.inl (by rw [List.map_cons]; exact List.mem_cons_of_mem _ h')
        · exact Or.inr h'

theorem getD_lt (labels : List ℕ) (N j : ℕ) (hN : 0 < N)
    (hlab : ∀ y ∈ labels, y < N) : labels.getD j 0 < N := by
  rcases Nat.lt_or_ge j labels.length with h | h
  · rw [List.getD_eq_getElem labels 0 h]
    exact hlab _ (List.getElem_mem h)
  · rw [List.getD_eq_default labels 0 h]
    exact hN

theorem tallyRange_keys_lt (edges : List Pair) (labels : List ℕ) (N : ℕ)
    (hN : 0 < N) (hlab : ∀ y ∈ labels, y < N) (s e : ℕ) :
    ∀ x ∈ (tallyRange edges labels s e).map Prod.fst, x < N := by
  unfold tallyRange
  have main : ∀ (idxs : List ℕ) (acc : List (ℕ × ℚ)),
      (∀ x ∈ acc.map Prod.fst, x < N) →
      ∀ x ∈ (idxs.foldl
        (fun acc n =>
          let ed := edges.getD n ⟨0, 0, 0⟩
          addTally acc (labels.getD ed.Idx2 0) ed.Distance) acc).map Prod.fst, x < N := by
    intro idxs
    induction idxs with
    | nil => intro acc h; exact h
    | cons n rest ih =>
      intro acc hacc
      rw [List.foldl_cons]
      refine ih _ ?_
      intro x hx
      rcases addTally_fst_mem _ _ _ x hx with h | rfl
      · exact hacc x h
      · exact getD_lt labels N _ hN hlab
  exact main _ [] (by simp)

theorem cwStep_preserves (edges : List Pair) (nb : List (ℕ × ℕ))
    (o : List (ℕ × ℚ) → List (ℕ × ℚ)) (labels : List ℕ) (pick N : ℕ)
    (hN : 0 < N) (ho : ∀ t, (o t).Perm t)
    (hlen : labels.length = N) (hlab : ∀ y ∈ labels, y < N) :
    (cwStep edges nb o labels pick).length = N ∧
    (∀ y ∈ cwStep edges nb o labels pick, y < N) := by
  simp only [cwStep]
  refine ⟨by rw [List.length_set]; exact hlen, ?_⟩
  intro y hy
  rcases List.mem_or_eq_of_mem_set hy with h | rfl
  · exact hlab y h
  · rcases selectBest_mem _ _ with h | h
    · rw [h]; exact getD_lt labels N _ hN hlab
    · have h' := ((ho _).map Prod.fst).mem_iff.mp h
      exact tallyRange_keys_lt edges labels N hN hlab _ _ _ h'

theorem propagate_length (edges : List Pair) (nb : List (ℕ × ℕ)) (rand : ℕ → ℕ)
    (ord : ℕ → List (ℕ × ℚ) → List (ℕ × ℚ)) :
    ∀ (steps : ℕ) (labels : List ℕ),
      (propagate edges nb rand ord steps labels).length = labels.length := by
  intro steps
  induction steps with
  | zero => intro labels; rfl
  | succ s ih =>
    intro labels
    rw [propagate_succ]
    simp only [cwStep]
    rw [List.length_set, ih]

theorem propagate_preserves (edges : List Pair) (nb : List (ℕ × ℕ)) (rand : ℕ → ℕ)
    (ord : ℕ → List (ℕ × ℚ) → List (ℕ × ℚ)) (N : ℕ) (hN : 0 < N)
    (hord : ∀ i t, (ord i t).Perm t) :
    ∀ (steps : ℕ) (labels : List ℕ), labels.length = N → (∀ y ∈ labels, y < N) →
      (propagate edges nb rand ord steps labels).length = N ∧
      (∀ y ∈ propagate edges nb rand ord steps labels, y < N) := by
  intro steps
  induction steps with
  | zero => intro labels h1 h2; exact ⟨h1, h2⟩
  | succ s ih =>
    intro labels h1 h2
    rw [propagate_succ]
    have h := ih labels h1 h2
    exact cwStep_preserves edges nb (ord s) _ (rand s) N hN (hord s) h.1 h.2

/-- C10: throughout any run — after every prefix of propagation steps, for
any random choices and any tally-map iteration orders — the label array of
`Run` keeps length `numNodes` and every entry is a valid node index in
`[0, numNodes)`.  Moreover every edge endpoint read during a step is a valid
node index, and every neighbour range stays inside the edge sequence, so the
array accesses of the propagation loop are in bounds. -/
theorem labels_in_range (edges : List Pair) (rand : ℕ → ℕ)
    (ord : ℕ → List (ℕ × ℚ) → List (ℕ × ℚ))
    (hord : ∀ i t, (ord i t).Perm t) :
    (∀ t : ℕ,
      (propagate edges (findNeighbourRanges edges) rand ord t
          (List.range (numNodes edges))).length = numNodes edges ∧
      ∀ x ∈ propagate edges (findNeighbourRanges edges) rand ord t
          (List.range (numNodes edges)), x < numNodes edges) ∧
    (∀ e ∈ edges, e.Idx1 < numNodes edges ∧ e.Idx2 < numNodes edges) ∧
    (∀ r ∈ findNeighbourRanges edges, r.1 ≤ r.2 ∧ r.2 ≤ edges.length) := by
  refine ⟨?_, fun e he => endpoint_lt_numNodes edges e he, findNeighbourRanges_bounds edges⟩
  intro t
  rcases Nat.eq_zero_or_pos (numNodes edges) with h0 | hpos
  · rw [h0]
    have hlen : (propagate edges (findNeighbourRanges edges) rand ord t
        (List.range 0)).length = 0 := by
      rw [propagate_length]; rfl
    refine ⟨hlen, ?_⟩
    intro x hx
    rw [List.eq_nil_of_length_eq_zero hlen] at hx
    cases hx
  · exact propagate_preserves edges _ rand ord _ hpos hord t _
      (List.length_range _) (fun y hy => List.mem_range.mp hy)

/-- C10 witness: a concrete run prefix on the triangle-star graph keeps all
labels below `numNodes = 3`. -/
theorem labels_in_range_witness :
    (propagate [⟨0, 1, 1⟩, ⟨0, 2, 1⟩, ⟨1, 0, 1⟩, ⟨2, 0, 1⟩]
        (findNeighbourRanges [⟨0, 1, 1⟩, ⟨0, 2, 1⟩, ⟨1, 0, 1⟩, ⟨2, 0, 1⟩])
        (fun _ => 0) (fun _ l => l) 3
        (List.range (numNodes [⟨0, 1, 1⟩, ⟨0, 2, 1⟩, ⟨1, 0, 1⟩, ⟨2, 0, 1⟩]))).length
      = numNodes [⟨0, 1, 1⟩, ⟨0, 2, 1⟩, ⟨1, 0, 1⟩, ⟨2, 0, 1⟩] :=
  ((labels_in_range [⟨0, 1, 1⟩, ⟨0, 2, 1⟩, ⟨1, 0, 1⟩, ⟨2, 0, 1⟩] (fun _ => 0)
    (fun _ l => l) (fun _ t => List.Perm.refl t)).1 3).1

/-! ## Claim C3 -/

theorem assocSet_fst (key v : ℕ) : ∀ (m : List (ℕ × ℕ)),
    (assocSet m key v).map Prod.fst
      = if key ∈ m.map Prod.fst then m.map Prod.fst else m.map Prod.fst ++ [key] := by
  intro m
  induction m with
  | nil => simp [assocSet]
  | cons kw rest ih =>
    obtain ⟨k, w⟩ := kw
    by_cases hk : k = key
    · subst hk
      simp [assocSet]
    · simp only [assocSet, if_neg hk, List.map_cons, ih]
      by_cases hmem : key ∈ rest.map Prod.fst
      · rw [if_pos hmem, if_pos (List.mem_cons_of_mem _ hmem)]
      · rw [if_neg hmem, if_neg, List.cons_append]
        intro hc
        rcases List.mem_cons.mp hc with h | h
        · exact hk h.symm
        · exact hmem h

theorem assocSet_length_mono (m : List (ℕ × ℕ)) (key v : ℕ) :
    m.length ≤ (assocSet m key v).length := by
  have h1 : (assocSet m key v).length = ((assocSet m key v).map Prod.fst).length :=
    (List.length_map ..).symm
  rw [h1, assocSet_fst]
  by_cases hmem : key ∈ m.map Prod.fst
  · rw [if_pos hmem, List.length_map]
  · rw [if_neg hmem, List.length_append, List.length_map]
    omega

theorem foldRemap_length_mono : ∀ (L : List ℕ) (m : List (ℕ × ℕ)),
    m.length ≤ (L.foldl (fun m l => assocSet m l m.length) m).length := by
  intro L
  induction L with
  | nil => intro m; exact le_refl _
  | cons l rest ih =>
    intro m
    rw [List.foldl_cons]
    exact le_trans (assocSet_length_mono m l m.length) (ih _)

theorem foldRemap_keys : ∀ (L : List ℕ) (m : List (ℕ × ℕ)),
    (m.map Prod.fst).Nodup →
    ((L.foldl (fun m l => assocSet m l m.length) m).map Prod.fst).Nodup ∧
    ∀ x ∈ (L.foldl (fun m l => assocSet m l m.length) m).map Prod.fst,
      x ∈ m.map Prod.fst ∨ x ∈ L := by
  intro L
  induction L with
  | nil => intro m hm; exact ⟨hm, fun x hx => Or.inl hx⟩
  | cons l rest ih =>
    intro m hm
    rw [List.foldl_cons]
    have hkeys := assocSet_fst l m.length m
    by_cases hmem : l ∈ m.map Prod.fst
    · rw [if_pos hmem] at hkeys
      have h := ih (assocSet m l m.length) (by rw [hkeys]; exact hm)
      refine ⟨h.1, ?_⟩
      intro x hx
      rcases h.2 x hx with h' | h'
      · rw [hkeys] at h'
        exact Or.inl h'
      · exact Or.inr (List.mem_cons_of_mem _ h')
    · rw [if_neg hmem] at hkeys
      have hnodup : ((assocSet m l m.length).map Prod.fst).Nodup := by
        rw [hkeys]
        simp [List.nodup_append, hm, hmem]
      have h := ih _ hnodup
      refine ⟨h.1, ?_⟩
      intro x hx
      rcases h.2 x hx with h' | h'
      · rw [hkeys] at h'
        rcases List.mem_append.mp h' with h'' | h''
        · exact Or.inl h''
        · rcases List.mem_singleton.mp h'' with rfl
          exact Or.inr (List.mem_cons_self _ _)
      · exact Or.inr (List.mem_cons_of_mem _ h')

theorem labelRemapOf_length_pos (L : List ℕ) (h : L ≠ []) :
    1 ≤ (labelRemapOf L).length := by
  cases L with
  | nil => exact absurd rfl h
  | cons l rest =>
    unfold labelRemapOf
    rw [List.foldl_cons]
    exact foldRemap_length_mono rest (assocSet [] l 0)

theorem labelRemapOf_length_le (L : List ℕ) (N : ℕ) (h : ∀ x ∈ L, x < N) :
    (labelRemapOf L).length ≤ N := by
  have hkeys := foldRemap_keys L [] (by simp)
  have hn : ((labelRemapOf L).map Prod.fst).Nodup := hkeys.1
  have hlt : ∀ x ∈ (labelRemapOf L).map Prod.fst, x < N := by
    intro x hx
    rcases hkeys.2 x hx with h' | h'
    · cases h'
    · exact h x h'
  calc (labelRemapOf L).length
      = ((labelRemapOf L).map Prod.fst).length := (List.length_map ..).symm
    _ = ((labelRemapOf L).map Prod.fst).toFinset.card := (List.toFinset_card_of_nodup hn).symm
    _ ≤ (Finset.range N).card := Finset.card_le_card
        (fun x hx => Finset.mem_range.mpr (hlt x (List.mem_toFinset.mp hx)))
    _ = N := Finset.card_range N

theorem propagatedLabels_length (iters : ℕ) (rand : ℕ → ℕ)
    (ord : ℕ → List (ℕ × ℚ) → List (ℕ × ℚ)) (edges : List Pair) :
    (propagatedLabels iters rand ord edges).length = numNodes edges := by
  simp only [propagatedLabels, ensureOrdered_eq, findNeighbourRanges_length]
  rw [propagate_length, List.length_range]

/-- C3: the cluster count returned by `Run` is 0 when there are no nodes
(`numNodes` is the maximal endpoint index plus one, or 0 for an empty store),
and lies in `[1, numNodes]` otherwise: the returned count is the number of
distinct keys of `labelRemap`, the raw labels are node indices throughout
propagation, and the label array is non-empty. -/
theorem run_cluster_count (edges : List Pair) (iters : ℕ) (rand : ℕ → ℕ)
    (ord : ℕ → List (ℕ × ℚ) → List (ℕ × ℚ)) (hord : ∀ i t, (ord i t).Perm t) :
    (numNodes edges = 0 → (RunCW iters rand ord edges).2 = 0) ∧
    (0 < numNodes edges →
      1 ≤ (RunCW iters rand ord edges).2 ∧
      (RunCW iters rand ord edges).2 ≤ numNodes edges) := by
  constructor
  · intro h0
    rw [(numNodes_eq_zero_iff edges).mp h0]
    rfl
  · intro hpos
    have hne : edges ≠ [] := by
      intro hc
      rw [hc] at hpos
      cases hpos
    have hrun : RunCW iters rand ord edges
        = compact (propagatedLabels iters rand ord edges) := by
      simp only [RunCW, ensureOrdered_eq]
      rw [if_neg (by simpa using hne)]
    have hk : (RunCW iters rand ord edges).2
        = (labelRemapOf (propagatedLabels iters rand ord edges)).length := by
      rw [hrun]; rfl
    have hLne : propagatedLabels iters rand ord edges ≠ [] := by
      intro hc
      have := propagatedLabels_length iters rand ord edges
      rw [hc] at this
      simp at this
      omega
    have hmem : ∀ x ∈ propagatedLabels iters rand ord edges, x < numNodes edges := by
      have h := (propagate_preserves edges (findNeighbourRanges edges) rand ord
        (numNodes edges) hpos hord ((findNeighbourRanges edges).length * iters)
        (List.range (findNeighbourRanges edges).length)
        (by rw [List.length_range, findNeighbourRanges_length])
        (by
          intro y hy
          rw [List.mem_range, findNeighbourRanges_length] at hy
          exact hy)).2
      intro x hx
      refine h x ?_
      simpa only [propagatedLabels, ensureOrdered_eq] using hx
    rw [hk]
    exact ⟨labelRemapOf_length_pos _ hLne, labelRemapOf_length_le _ _ hmem⟩

/-- C3 witness: the empty store gives 0 clusters; the symmetric single edge
with one iteration gives a count in `[1, 2]`. -/
theorem run_cluster_count_witness :
    (RunCW 1 (fun _ => 0) (fun _ l => l) ([] : List Pair)).2 = 0 ∧
    1 ≤ (RunCW 1 (fun _ => 0) (fun _ l => l) [⟨0, 1, 1⟩, ⟨1, 0, 1⟩]).2 ∧
    (RunCW 1 (fun _ => 0) (fun _ l => l) [⟨0, 1, 1⟩, ⟨1, 0, 1⟩]).2
      ≤ numNodes [⟨0, 1, 1⟩, ⟨1, 0, 1⟩] :=
  ⟨(run_cluster_count [] 1 (fun _ => 0) (fun _ l => l) (fun _ t => List.Perm.refl t)).1 rfl,
   (run_cluster_count [⟨0, 1, 1⟩, ⟨1, 0, 1⟩] 1 (fun _ => 0) (fun _ l => l)
     (fun _ t => List.Perm.refl t)).2 (by decide)⟩

/-! ## Claim C7 -/

/-- Number of edges whose `Idx1` field is below `i` (a proof-side
characterization used to locate node `i`'s block in a sorted edge list). -/
def countIdx1Lt (edges : List Pair) (i : ℕ) : ℕ :=
  (edges.filter (fun e => decide (e.Idx1 < i))).length

/-- Number of edges whose `Idx1` field equals `i`. -/
def countIdx1Eq (edges : List Pair) (i : ℕ) : ℕ :=
  (edges.filter (fun e => decide (e.Idx1 = i))).length

theorem countIdx1Lt_cons (a : Pair) (rest : List Pair) (i : ℕ) :
    countIdx1Lt (a :: rest) i = (if a.Idx1 < i then 1 else 0) + countIdx1Lt rest i := by
  unfold countIdx1Lt
  by_cases h : a.Idx1 < i
  · rw [if_pos h, List.filter_cons_of_pos (by simpa using h), List.length_cons]
    omega
  · rw [if_neg h, List.filter_cons_of_neg (by simpa using h)]
    omega

theorem countIdx1Eq_cons (a : Pair) (rest : List Pair) (i : ℕ) :
    countIdx1Eq (a :: rest) i = (if a.Idx1 = i then 1 else 0) + countIdx1Eq rest i := by
  unfold countIdx1Eq
  by_cases h : a.Idx1 = i
  · rw [if_pos h, List.filter_cons_of_pos (by simpa using h), List.length_cons]
    omega
  · rw [if_neg h, List.filter_cons_of_neg (by simpa using h)]
    omega

theorem countIdx1Lt_singleton (e : Pair) (i : ℕ) :
    countIdx1Lt [e] i = if e.Idx1 < i then 1 else 0 := by
  rw [countIdx1Lt_cons, show countIdx1Lt [] i = 0 from rfl]
  omega

theorem countIdx1Eq_singleton (e : Pair) (i : ℕ) :
    countIdx1Eq [e] i = if e.Idx1 = i then 1 else 0 := by
  rw [countIdx1Eq_cons, show countIdx1Eq [] i = 0 from rfl]
  omega

theorem countIdx1Lt_append (l1 l2 : List Pair) (i : ℕ) :
    countIdx1Lt (l1 ++ l2) i = countIdx1Lt l1 i + countIdx1Lt l2 i := by
  unfold countIdx1Lt
  rw [List.filter_append, List.length_append]

theorem countIdx1Eq_append (l1 l2 : List Pair) (i : ℕ) :
    countIdx1Eq (l1 ++ l2) i = countIdx1Eq l1 i + countIdx1Eq l2 i := by
  unfold countIdx1Eq
  rw [List.filter_append, List.length_append]

theorem countIdx1Lt_eq_zero (l : List Pair) (i : ℕ) (h : ∀ x ∈ l, ¬ x.Idx1 < i) :
    countIdx1Lt l i = 0 := by
  unfold countIdx1Lt
  rw [List.filter_eq_nil_iff.mpr (fun x hx => by simpa using h x hx)]
  rfl

theorem countIdx1Eq_eq_zero (l : List Pair) (i : ℕ) (h : ∀ x ∈ l, x.Idx1 ≠ i) :
    countIdx1Eq l i = 0 := by
  unfold countIdx1Eq
  rw [List.filter_eq_nil_iff.mpr (fun x hx => by simpa using h x hx)]
  rfl

theorem countIdx1Lt_eq_length (l : List Pair) (i : ℕ) (h : ∀ x ∈ l, x.Idx1 < i) :
    countIdx1Lt l i = l.length := by
  unfold countIdx1Lt
  rw [List.filter_eq_self.mpr (fun x hx => by simpa using h x hx)]

theorem counts_partition (l : List Pair) (c : ℕ) (h : ∀ x ∈ l, x.Idx1 ≤ c) :
    countIdx1Lt l c + countIdx1Eq l c = l.length := by
  induction l with
  | nil => rfl
  | cons a rest ih =>
    have ha := h a (List.mem_cons_self ..)
    have hrest := ih (fun x hx => h x (List.mem_cons_of_mem _ hx))
    rw [countIdx1Lt_cons, countIdx1Eq_cons, List.length_cons]
    rcases Nat.lt_or_ge a.Idx1 c with h1 | h1
    · rw [if_pos h1, if_neg (by omega)]
      omega
    · rw [if_neg (by omega), if_pos (by omega)]
      omega

theorem counts_le_length (l : List Pair) (i : ℕ) :
    countIdx1Lt l i + countIdx1Eq l i ≤ l.length := by
  induction l with
  | nil => exact le_refl _
  | cons a rest ih =>
    rw [countIdx1Lt_cons, countIdx1Eq_cons, List.length_cons]
    rcases Nat.lt_trichotomy a.Idx1 i with h | h | h
    · rw [if_pos h, if_neg (by omega)]
      omega
    · rw [if_neg (by omega), if_pos h]
      omega
    · rw [if_neg (by omega), if_neg (by omega)]
      omega

theorem edgesSorted_chain : ∀ (l : List Pair), edgesSorted l = true →
    List.Chain' (fun a b => a.Idx1 ≤ b.Idx1) l
  | [], _ => List.chain'_nil
  | [_], _ => List.chain'_singleton _
  | a :: b :: rest, h => by
    rw [show edgesSorted (a :: b :: rest) = (!pairLess b a && edgesSorted (b :: rest))
        from rfl, Bool.and_eq_true] at h
    refine List.chain'_cons.mpr ⟨?_, edgesSorted_chain (b :: rest) h.2⟩
    have hp : pairLess b a = false := by
      cases hx : pairLess b a
      · rfl
      · rw [hx] at h
        cases h.1
    unfold pairLess at hp
    rw [Bool.or_eq_false_iff] at hp
    have := hp.1
    rw [decide_eq_false_iff_not] at this
    omega

theorem edgesSorted_pairwise (l : List Pair) (h : edgesSorted l = true) :
    List.Pairwise (fun a b => a.Idx1 ≤ b.Idx1) l := by
  haveI : IsTrans Pair (fun a b => a.Idx1 ≤ b.Idx1) := ⟨fun _ _ _ h1 h2 => le_trans h1 h2⟩
  exact List.chain'_iff_pairwise.mp (edgesSorted_chain l h)

theorem sorted_position (edges : List Pair)
    (hp : List.Pairwise (fun a b => a.Idx1 ≤ b.Idx1) edges) (i : ℕ) :
    ∀ j, j < edges.length →
      ((edges.getD j ⟨0, 0, 0⟩).Idx1 = i ↔
        (countIdx1Lt edges i ≤ j ∧ j < countIdx1Lt edges i + countIdx1Eq edges i)) := by
  induction edges with
  | nil => intro j hj; simp at hj
  | cons a rest ih =>
    have hpa : ∀ b ∈ rest, a.Idx1 ≤ b.Idx1 := (List.pairwise_cons.mp hp).1
    have hrest := ih (List.pairwise_cons.mp hp).2
    intro j hj
    have hLt := countIdx1Lt_cons a rest i
    have hEq := countIdx1Eq_cons a rest i
    cases j with
    | zero =>
      rw [List.getD_cons_zero]
      rcases Nat.lt_trichotomy a.Idx1 i with h | h | h
      · rw [if_pos h] at hLt
        rw [if_neg (by omega)] at hEq
        constructor
        · intro hh; omega
        · intro hh; omega
      · rw [if_neg (by omega)] at hLt
        rw [if_pos h] at hEq
        have hLt0 : countIdx1Lt rest i = 0 :=
          countIdx1Lt_eq_zero rest i (fun x hx => by have := hpa x hx; omega)
        constructor
        · intro _; omega
        · intro _; exact h
      · rw [if_neg (by omega)] at hLt
        rw [if_neg (by omega)] at hEq
        have hLt0 : countIdx1Lt rest i = 0 :=
          countIdx1Lt_eq_zero rest i (fun x hx => by have := hpa x hx; omega)
        have hEq0 : countIdx1Eq rest i = 0 :=
          countIdx1Eq_eq_zero rest i (fun x hx => by have := hpa x hx; omega)
        constructor
        · intro hh; omega
        · intro hh; omega
    | succ j' =>
      rw [List.getD_cons_succ]
      have hj' : j' < rest.length := by simpa using hj
      rw [hrest j' hj']
      rcases Nat.lt_trichotomy a.Idx1 i with h | h | h
      · rw [if_pos h] at hLt
        rw [if_neg (by omega)] at hEq
        omega
      · rw [if_neg (by omega)] at hLt
        rw [if_pos h] at hEq
        have hLt0 : countIdx1Lt rest i = 0 :=
          countIdx1Lt_eq_zero rest i (fun x hx => by have := hpa x hx; omega)
        omega
      · rw [if_neg (by omega)] at hLt
        rw [if_neg (by omega)] at hEq
        have hLt0 : countIdx1Lt rest i = 0 :=
          countIdx1Lt_eq_zero rest i (fun x hx => by have := hpa x hx; omega)
        have hEq0 : countIdx1Eq rest i = 0 :=
          countIdx1Eq_eq_zero rest i (fun x hx => by have := hpa x hx; omega)
        omega

theorem rangesLoop_sorted_spec (todo : List Pair) :
    ∀ (done : List Pair) (nb : List (ℕ × ℕ)) (cur start i0 N : ℕ),
      List.Pairwise (fun a b => a.Idx1 ≤ b.Idx1) (done ++ todo) →
      (∀ e ∈ done, e.Idx1 ≤ cur) →
      (∀ e ∈ todo, cur ≤ e.Idx1) →
      (∀ e ∈ todo, e.Idx1 < N) →
      cur < N →
      (done = [] → cur = 0) →
      (done ≠ [] → 1 ≤ countIdx1Eq done cur) →
      start = countIdx1Lt done cur →
      i0 = done.length →
      nb.length = N →
      (∀ i, nb.getD i (0, 0) =
        if cur ≤ i ∨ countIdx1Eq done i = 0 then (0, 0)
        else (countIdx1Lt done i, countIdx1Lt done i + countIdx1Eq done i)) →
      (rangesLoop nb cur start i0 todo).1.length = N ∧
      (rangesLoop nb cur start i0 todo).2.1 < N ∧
      (∀ e ∈ done ++ todo, e.Idx1 ≤ (rangesLoop nb cur start i0 todo).2.1) ∧
      (done ++ todo ≠ [] →
        1 ≤ countIdx1Eq (done ++ todo) (rangesLoop nb cur start i0 todo).2.1) ∧
      (rangesLoop nb cur start i0 todo).2.2
        = countIdx1Lt (done ++ todo) (rangesLoop nb cur start i0 todo).2.1 ∧
      (∀ i, (rangesLoop nb cur start i0 todo).1.getD i (0, 0) =
        if (rangesLoop nb cur start i0 todo).2.1 ≤ i ∨ countIdx1Eq (done ++ todo) i = 0
        then (0, 0)
        else (countIdx1Lt (done ++ todo) i,
          countIdx1Lt (done ++ todo) i + countIdx1Eq (done ++ todo) i)) := by
  induction todo with
  | nil =>
    intro done nb cur start i0 N hpair hle hlo hNt hcur hnil hEq hstart hi0 hnb hentries
    simp only [rangesLoop, List.append_nil]
    exact ⟨hnb, hcur, hle, hEq, hstart, hentries⟩
  | cons e rest ih =>
    intro done nb cur start i0 N hpair hle hlo hNt hcur hnil hEq hstart hi0 hnb hentries
    have hassoc : (done ++ [e]) ++ rest = done ++ e :: rest := by
      rw [List.append_assoc]
      rfl
    by_cases hcase : e.Idx1 = cur
    · have hstep : rangesLoop nb cur start i0 (e :: rest)
          = rangesLoop nb cur start (i0 + 1) rest := by
        simp only [rangesLoop]
        rw [if_neg (fun hcon => hcon hcase)]
      rw [hstep]
      have eqP : countIdx1Lt (done ++ [e]) cur = countIdx1Lt done cur := by
        rw [countIdx1Lt_append, countIdx1Lt_singleton,
          if_neg (by rw [hcase]; exact lt_irrefl cur), Nat.add_zero]
      have hp' : List.Pairwise (fun a b => a.Idx1 ≤ b.Idx1) ((done ++ [e]) ++ rest) := by
        rw [hassoc]
        exact hpair
      have hle' : ∀ x ∈ done ++ [e], x.Idx1 ≤ cur := by
        intro x hx
        rcases List.mem_append.mp hx with h | h
        · exact hle x h
        · rcases List.mem_singleton.mp h with rfl
          exact le_of_eq hcase
      have hlo' : ∀ x ∈ rest, cur ≤ x.Idx1 := fun x hx => hlo x (List.mem_cons_of_mem _ hx)
      have hNt' : ∀ x ∈ rest, x.Idx1 < N := fun x hx => hNt x (List.mem_cons_of_mem _ hx)
      have hnil' : done ++ [e] = [] → cur = 0 := fun h => absurd h (by simp)
      have hEq' : done ++ [e] ≠ [] → 1 ≤ countIdx1Eq (done ++ [e]) cur := by
        intro _
        rw [countIdx1Eq_append, countIdx1Eq_singleton, if_pos hcase]
        omega
      have hstart' : start = countIdx1Lt (done ++ [e]) cur := by
        rw [eqP]
        exact hstart
      have hi0' : i0 + 1 = (done ++ [e]).length := by
        rw [hi0, List.length_append]
        rfl
      have hentries' : ∀ i, nb.getD i (0, 0) =
          if cur ≤ i ∨ countIdx1Eq (done ++ [e]) i = 0 then (0, 0)
          else (countIdx1Lt (done ++ [e]) i,
            countIdx1Lt (done ++ [e]) i + countIdx1Eq (done ++ [e]) i) := by
        intro i
        rw [hentries i]
        by_cases hci : cur ≤ i
        · rw [if_pos (Or.inl hci), if_pos (Or.inl hci)]
        · have hEi : countIdx1Eq (done ++ [e]) i = countIdx1Eq done i := by
            rw [countIdx1Eq_append, countIdx1Eq_singleton, if_neg (by omega), Nat.add_zero]
          have hPi : countIdx1Lt (done ++ [e]) i = countIdx1Lt done i := by
            rw [countIdx1Lt_append, countIdx1Lt_singleton, if_neg (by omega), Nat.add_zero]
          rw [hEi, hPi]
      have h := ih (done ++ [e]) nb cur start (i0 + 1) N hp' hle' hlo' hNt' hcur
        hnil' hEq' hstart' hi0' hnb hentries'
      rw [hassoc] at h
      exact h
    · have hstep : rangesLoop nb cur start i0 (e :: rest)
          = rangesLoop (nb.set cur (start, i0)) e.Idx1 i0 (i0 + 1) rest := by
        simp only [rangesLoop]
        rw [if_pos hcase]
      rw [hstep]
      have hgt : cur < e.Idx1 := by
        have := hlo e (List.mem_cons_self ..)
        omega
      have hleD : ∀ x ∈ done, x.Idx1 < e.Idx1 := fun x hx =>
        lt_of_le_of_lt (hle x hx) hgt
      have hp' : List.Pairwise (fun a b => a.Idx1 ≤ b.Idx1) ((done ++ [e]) ++ rest) := by
        rw [hassoc]
        exact hpair
      have hle' : ∀ x ∈ done ++ [e], x.Idx1 ≤ e.Idx1 := by
        intro x hx
        rcases List.mem_append.mp hx with h | h
        · exact le_of_lt (hleD x h)
        · rcases List.mem_singleton.mp h with rfl
          exact le_refl _
      have hlo' : ∀ x ∈ rest, e.Idx1 ≤ x.Idx1 := by
        have hp2 := (List.pairwise_append.mp hpair).2.1
        exact (List.pairwise_cons.mp hp2).1
      have hNt' : ∀ x ∈ rest, x.Idx1 < N := fun x hx => hNt x (List.mem_cons_of_mem _ hx)
      have hcur' : e.Idx1 < N := hNt e (List.mem_cons_self ..)
      have hnil' : done ++ [e] = [] → e.Idx1 = 0 := fun h => absurd h (by simp)
      have hEq' : done ++ [e] ≠ [] → 1 ≤ countIdx1Eq (done ++ [e]) e.Idx1 := by
        intro _
        rw [countIdx1Eq_append, countIdx1Eq_singleton, if_pos rfl]
        omega
      have hstart' : i0 = countIdx1Lt (done ++ [e]) e.Idx1 := by
        rw [countIdx1Lt_append, countIdx1Lt_singleton, if_neg (lt_irrefl _), Nat.add_zero,
          countIdx1Lt_eq_length done e.Idx1 hleD]
        exact hi0
      have hi0' : i0 + 1 = (done ++ [e]).length := by
        rw [hi0, List.length_append]
        rfl
      have hentries' : ∀ i, (nb.set cur (start, i0)).getD i (0, 0) =
          if e.Idx1 ≤ i ∨ countIdx1Eq (done ++ [e]) i = 0 then (0, 0)
          else (countIdx1Lt (done ++ [e]) i,
            countIdx1Lt (done ++ [e]) i + countIdx1Eq (done ++ [e]) i) := by
        intro i
        by_cases hi : i = cur
        · subst hi
          rw [getD_set_self _ _ _ _ (by rw [hnb]; exact hcur)]
          have hEe : countIdx1Eq (done ++ [e]) i = countIdx1Eq done i := by
            rw [countIdx1Eq_append, countIdx1Eq_singleton, if_neg hcase, Nat.add_zero]
          have hPe : countIdx1Lt (done ++ [e]) i = countIdx1Lt done i := by
            rw [countIdx1Lt_append, countIdx1Lt_singleton, if_neg (by omega), Nat.add_zero]
          rcases eq_or_ne done [] with hD | hD
          · have hE0 : countIdx1Eq (done ++ [e]) i = 0 := by
              rw [hEe, hD]
              rfl
            rw [if_pos (Or.inr hE0), hstart, hi0, hD]
            rfl
          · have hE1 : 1 ≤ countIdx1Eq done i := hEq hD
            rw [if_neg (by
              intro hcon
              rcases hcon with hcon | hcon
              · omega
              · rw [hEe] at hcon
                omega)]
            rw [hPe, hEe, hstart, hi0, counts_partition done i hle]
        · rw [getD_set_ne _ _ _ _ _ (fun hc => hi hc.symm), hentries i]
          by_cases h1 : e.Idx1 ≤ i
          · rw [if_pos (Or.inl (by omega)), if_pos (Or.inl h1)]
          · have hEi : countIdx1Eq (done ++ [e]) i = countIdx1Eq done i := by
              rw [countIdx1Eq_append, countIdx1Eq_singleton, if_neg (by omega), Nat.add_zero]
            have hPi : countIdx1Lt (done ++ [e]) i = countIdx1Lt done i := by
              rw [countIdx1Lt_append, countIdx1Lt_singleton, if_neg (by omega), Nat.add_zero]
            by_cases h2 : cur ≤ i
            · have hE0 : countIdx1Eq done i = 0 :=
                countIdx1Eq_eq_zero done i (fun x hx => by have := hle x hx; omega)
              rw [if_pos (Or.inr hE0), if_pos (Or.inr (by rw [hEi]; exact hE0))]
            · rw [hEi, hPi]
              by_cases h3 : countIdx1Eq done i = 0
              · rw [if_pos (Or.inr h3), if_pos (Or.inr h3)]
              · rw [if_neg (fun hc => hc.elim h2 h3), if_neg (fun hc => hc.elim h1 h3)]
      have h := ih (done ++ [e]) (nb.set cur (start, i0)) e.Idx1 i0 (i0 + 1) N hp' hle'
        hlo' hNt' hcur' hnil' hEq' hstart' hi0' (by rw [List.length_set]; exact hnb)
        hentries'
      rw [hassoc] at h
      exact h

theorem findNeighbourRanges_entries (edges : List Pair) (hs : edgesSorted edges = true)
    (hne : edges ≠ []) :
    ∀ i, (findNeighbourRanges edges).getD i (0, 0) =
      if countIdx1Eq edges i = 0 then (0, 0)
      else (countIdx1Lt edges i, countIdx1Lt edges i + countIdx1Eq edges i) := by
  have hpair := edgesSorted_pairwise edges hs
  have hN0 : 0 < numNodes edges := by
    cases edges with
    | nil => exact absurd rfl hne
    | cons a rest =>
      show 0 < maxEndpoint (a :: rest) + 1
      omega
  have hmain := rangesLoop_sorted_spec edges []
    (List.replicate (numNodes edges) (0, 0)) 0 0 0 (numNodes edges)
    (by simpa using hpair)
    (by intro e he; cases he)
    (fun e _ => Nat.zero_le _)
    (fun e he => (endpoint_lt_numNodes edges e he).1)
    hN0
    (fun _ => rfl)
    (fun h => absurd rfl h)
    rfl
    rfl
    (List.length_replicate ..)
    (by
      intro i
      rw [getD_replicate, if_pos (Or.inl (Nat.zero_le i))])
  rw [List.nil_append] at hmain
  intro i
  simp only [findNeighbourRanges]
  set st := rangesLoop (List.replicate (numNodes edges) (0, 0)) 0 0 0 edges with hstdef
  obtain ⟨hlen, hcurN, hleF, hEF, hstartF, hentF⟩ := hmain
  rw [if_pos (by rw [hlen]; omega)]
  by_cases hi : i = st.2.1
  · subst hi
    rw [getD_set_self _ _ _ _ (by rw [hlen]; exact hcurN)]
    have hEne : countIdx1Eq edges st.2.1 ≠ 0 := by
      have := hEF hne
      omega
    rw [if_neg hEne, hstartF, counts_partition edges st.2.1 hleF]
  · rw [getD_set_ne _ _ _ _ _ (fun hc => hi hc.symm), hentF i]
    by_cases hE : countIdx1Eq edges i = 0
    · rw [if_pos (Or.inr hE), if_pos hE]
    · have hlt : ¬ st.2.1 ≤ i := by
        intro hc
        exact hE (countIdx1Eq_eq_zero edges i (fun x hx => by have := hleF x hx; omega))
      rw [if_neg (fun hc => hc.elim hlt hE), if_neg hE]

/-- C7: on a sorted edge sequence, `findNeighbourRanges` produces
`numNodes` half-open ranges (where `numNodes` is the maximal endpoint plus
one, or 0 with no edges), and node `i`'s range contains position `j` exactly
when `j` is a valid position whose edge has `from`-field `i`.  Hence node
`i`'s range contains exactly node `i`'s edges, a node with no incident edges
has an empty range, and since every position belongs to the unique node given
by its `from`-field, the non-empty ranges partition the edge sequence. -/
theorem findNeighbourRanges_spec (edges : List Pair) (hs : edgesSorted edges = true) :
    (findNeighbourRanges edges).length = numNodes edges ∧
    ∀ i, i < numNodes edges → ∀ j,
      ((((findNeighbourRanges edges).getD i (0, 0)).1 ≤ j ∧
        j < ((findNeighbourRanges edges).getD i (0, 0)).2)
      ↔ (j < edges.length ∧ (edges.getD j ⟨0, 0, 0⟩).Idx1 = i)) := by
  refine ⟨findNeighbourRanges_length edges, ?_⟩
  intro i hi j
  rcases eq_or_ne edges [] with rfl | hne
  · rw [show numNodes [] = 0 from rfl] at hi
    exact absurd hi (Nat.not_lt_zero i)
  · have hent := findNeighbourRanges_entries edges hs hne i
    have hpos := sorted_position edges (edgesSorted_pairwise edges hs) i
    rw [hent]
    by_cases hE : countIdx1Eq edges i = 0
    · rw [if_pos hE]
      constructor
      · intro h
        have h2 : j < 0 := h.2
        exact absurd h2 (Nat.not_lt_zero j)
      · intro h
        exfalso
        have hb := (hpos j h.1).mp h.2
        omega
    · rw [if_neg hE]
      constructor
      · intro h
        have h1 : countIdx1Lt edges i ≤ j := h.1
        have h2 : j < countIdx1Lt edges i + countIdx1Eq edges i := h.2
        have hjlen : j < edges.length := lt_of_lt_of_le h2 (counts_le_length edges i)
        exact ⟨hjlen, (hpos j hjlen).mpr ⟨h1, h2⟩⟩
      · intro h
        have hb := (hpos j h.1).mp h.2
        exact ⟨hb.1, hb.2⟩

/-- C7 witness: on the sorted symmetric star edges, the index has
`numNodes = 3` ranges and node 0's range contains position 1, whose edge
`(0,2,1)` indeed has `from`-field 0. -/
theorem findNeighbourRanges_spec_witness :
    (findNeighbourRanges [⟨0, 1, 1⟩, ⟨0, 2, 1⟩, ⟨1, 0, 1⟩, ⟨2, 0, 1⟩]).length
        = numNodes [⟨0, 1, 1⟩, ⟨0, 2, 1⟩, ⟨1, 0, 1⟩, ⟨2, 0, 1⟩] ∧
    (((findNeighbourRanges [⟨0, 1, 1⟩, ⟨0, 2, 1⟩, ⟨1, 0, 1⟩, ⟨2, 0, 1⟩]).getD 0 (0, 0)).1 ≤ 1 ∧
      1 < ((findNeighbourRanges [⟨0, 1, 1⟩, ⟨0, 2, 1⟩, ⟨1, 0, 1⟩, ⟨2, 0, 1⟩]).getD 0 (0, 0)).2) :=
  ⟨(findNeighbourRanges_spec [⟨0, 1, 1⟩, ⟨0, 2, 1⟩, ⟨1, 0, 1⟩, ⟨2, 0, 1⟩] (by decide)).1,
   ((findNeighbourRanges_spec [⟨0, 1, 1⟩, ⟨0, 2, 1⟩, ⟨1, 0, 1⟩, ⟨2, 0, 1⟩] (by decide)).2 0
      (by decide) 1).mpr (by decide)⟩
